import Mathlib

/-!
Verification of the `rag_utils` document-ingestion and retrieval pipeline
(`chatbot/rag_utils.py`): text extraction routing, chunking, indexing and
similarity retrieval.  Text is modelled as `List Char` (Python `str`), the
vector index as a list of entries, and the external collaborators (format
extractors, embedding model, uuid source, Chroma collection) as explicit
parameters following their interface contracts.
-/

namespace Rag

/-- Python `str.isspace` characters relevant to `str.strip()` (ASCII whitespace). -/
def pyIsSpace (c : Char) : Bool :=
  c = ' ' || c = '\t' || c = '\n' || c = '\r' || c = '\x0b' || c = '\x0c'

/-- Python `s.strip()`: drop leading and trailing whitespace. -/
def pyStrip (l : List Char) : List Char :=
  ((l.dropWhile pyIsSpace).reverse.dropWhile pyIsSpace).reverse

/-- Lines 49-50 of `split_text`: remove `\r`, split on `\n`, strip each
paragraph and keep the non-empty ones. -/
def paragraphsOf (text : List Char) : List (List Char) :=
  (((text.filter (fun c => c ≠ '\r')).splitOn '\n').map pyStrip).filter (fun p => p ≠ [])

/-- Lines 51-60 of `split_text`: greedy paragraph accumulation.  State is the
`chunks` accumulator and the current buffer `buf`; flushes `buf` when the next
paragraph does not fit, and at the end when non-empty. -/
def accumLoop (chunk_size : Nat) : List (List Char) → List (List Char) → List Char → List (List Char)
  | [], chunks, buf => if buf.isEmpty then chunks else chunks ++ [buf]
  | p :: rest, chunks, buf =>
    if buf.length + p.length + 1 ≤ chunk_size then
      accumLoop chunk_size rest chunks (if buf.isEmpty then p else buf ++ '\n' :: p)
    else
      accumLoop chunk_size rest (if buf.isEmpty then chunks else chunks ++ [buf]) p

/-- The paragraph-level chunks built by lines 51-60 of `split_text`. -/
def accumChunks (chunk_size : Nat) (ps : List (List Char)) : List (List Char) :=
  accumLoop chunk_size ps [] []

/-- Lines 68-72 of `split_text`: the hard-slice `while start < len(c)` loop,
modelled with explicit fuel since the source loop advances by
`chunk_size - overlap`, which may be zero.  `none` means the fuel ran out,
i.e. the loop performed more iterations than the fuel allows. -/
def sliceLoopF (chunk_size overlap : Nat) : Nat → List Char → Nat → Option (List (List Char))
  | 0, _, _ => none
  | fuel + 1, c, start =>
    if start < c.length then
      match sliceLoopF chunk_size overlap fuel c (start + (chunk_size - overlap)) with
      | none => none
      | some rest => some (((c.drop start).take chunk_size) :: rest)
    else
      some []

/-- Lines 64-72 of `split_text`: the slices contributed to `final_chunks` by a
single paragraph-level chunk `c`: `c` itself when it fits, otherwise the
hard-slice windows. -/
def chunkPieceF (fuel chunk_size overlap : Nat) (c : List Char) : Option (List (List Char)) :=
  if c.length ≤ chunk_size then some [c] else sliceLoopF chunk_size overlap fuel c 0

/-- The per-chunk pieces of the `final_chunks` loop (lines 63-72), kept
unflattened so that each hard-sliced paragraph keeps its own window list. -/
def piecesF (fuel chunk_size overlap : Nat) : List (List Char) → Option (List (List (List Char)))
  | [] => some []
  | c :: rest =>
    match chunkPieceF fuel chunk_size overlap c, piecesF fuel chunk_size overlap rest with
    | some p, some ps => some (p :: ps)
    | _, _ => none

/-- `split_text(text, chunk_size, overlap)` (lines 47-73) with explicit fuel
for the hard-slice loops; `final_chunks` is the concatenation of the pieces. -/
def split_textF (fuel chunk_size overlap : Nat) (text : List Char) : Option (List (List Char)) :=
  (piecesF fuel chunk_size overlap (accumChunks chunk_size (paragraphsOf text))).map List.flatten

/-- Fuel sufficient for every hard-slice loop of `split_text` whenever
`overlap < chunk_size`: one more than the longest paragraph-level chunk. -/
def fuelFor (chunk_size : Nat) (text : List Char) : Nat :=
  ((accumChunks chunk_size (paragraphsOf text)).map List.length).foldr max 0 + 1

/-- `split_text(text, chunk_size, overlap)` as a total function, read off at
the sufficient fuel.  The source defaults are `chunk_size=800`, `overlap=120`
(line 47); callers inside the repository always use the defaults. -/
def split_text (text : List Char) (chunk_size overlap : Nat) : List (List Char) :=
  (split_textF (fuelFor chunk_size text) chunk_size overlap text).getD []

/-- Python `"\n".join(l)` on a list of strings. -/
def joinNL : List (List Char) → List Char
  | [] => []
  | [x] => x
  | x :: y :: t => x ++ '\n' :: joinNL (y :: t)

/-- The non-overlapping portion of a hard-sliced window list: the first window
contributes all of its characters, every later window only the characters
after the first `overlap` ones (shared with its predecessor). -/
def dropOverlapJoin (overlap : Nat) : List (List Char) → List Char
  | [] => []
  | w :: ws => w ++ (ws.map (List.drop overlap)).flatten

/-- The format extractors of `rag_utils.py` (lines 79-137), identified by the
function the router dispatches to. -/
inductive ExtractorTag
  | pdf | docx | pptx | excel | csv | html | txt | image
deriving DecidableEq

/-- Python `func.__name__` for each extractor, as reported by
`extract_text_generic` (line 178). -/
def extractorName : ExtractorTag → String
  | .pdf => "extract_text_from_pdf"
  | .docx => "extract_text_from_docx"
  | .pptx => "extract_text_from_pptx"
  | .excel => "extract_text_from_excel"
  | .csv => "extract_text_from_csv"
  | .html => "extract_text_from_html"
  | .txt => "extract_text_from_txt"
  | .image => "extract_text_from_image"

/-- The `EXT_MAP` dispatch dictionary (lines 143-158): `.get` on the
lowercased extension. -/
def EXT_MAP (ext : List Char) : Option ExtractorTag :=
  if ext = ".pdf".data then some .pdf
  else if ext = ".docx".data then some .docx
  else if ext = ".pptx".data then some .pptx
  else if ext = ".xlsx".data then some .excel
  else if ext = ".xls".data then some .excel
  else if ext = ".csv".data then some .csv
  else if ext = ".html".data then some .html
  else if ext = ".htm".data then some .html
  else if ext = ".txt".data then some .txt
  else if ext = ".md".data then some .txt
  else if ext = ".jpg".data then some .image
  else if ext = ".jpeg".data then some .image
  else if ext = ".png".data then some .image
  else if ext = ".webp".data then some .image
  else none

/-- Lines 166-172 of `extract_text_generic`: `EXT_MAP.get(ext)` with the
gif/tif/tiff image fallback and the plain-text last resort. -/
def selectExtractor (ext : List Char) : ExtractorTag :=
  match EXT_MAP ext with
  | some f => f
  | none =>
    if ext = ".gif".data ∨ ext = ".tif".data ∨ ext = ".tiff".data then .image
    else .txt

/-- Python `os.path.splitext(path)[1]`: the extension of the last path
component, starting at its last dot, empty when every character before that
dot is itself a dot (so dotfiles such as `.bashrc` have no extension). -/
def splitext_ext (path : List Char) : List Char :=
  let base := ((path.splitOn '/').getLast?).getD []
  let k := base.reverse.findIdx (fun c => c = '.')
  if k < base.length then
    let pos := base.length - 1 - k
    if (base.take pos).any (fun c => c ≠ '.') then base.drop pos else []
  else []

/-- Python `str.lower()` on the extension. -/
def pyLower (l : List Char) : List Char := l.map Char.toLower

/-- The body of `extract_text_from_image` (lines 128-137): empty text when OCR
is unavailable, otherwise the OCR call (modelled as an oracle that may raise). -/
def extract_text_from_image (ocrAvailable : Bool) (ocr : List Char → Except Unit (List Char))
    (path : List Char) : Except Unit (List Char) :=
  if ocrAvailable then ocr path else Except.ok []

/-- `extract_text_generic(path)` (lines 161-178): route on the lowercased
extension, run the selected extractor (an effectful oracle `runExt`), and
convert any raised exception into empty text.  Returns `(text, func.__name__)`. -/
def extract_text_generic (runExt : ExtractorTag → List Char → Except Unit (List Char))
    (path : List Char) : List Char × String :=
  let ext := pyLower (splitext_ext path)
  let func := selectExtractor ext
  match runExt func path with
  | Except.ok t => (t, extractorName func)
  | Except.error _ => ([], extractorName func)

/-- One `(id, embedding, document, metadata)` record of the Chroma collection.
Ids are `(sha1(source_name), ordinal, uuid-suffix)` triples, mirroring the
`f-string` of line 196 whose three components are recoverable from the text. -/
structure Entry (E : Type) where
  eid : Nat × Nat × Nat
  embedding : E
  document : List Char
  source : List Char
  chunk : Nat
deriving DecidableEq

/-- The persistent Chroma collection state: the list of stored entries. -/
structure Index (E : Type) where
  entries : List (Entry E)
deriving DecidableEq

/-- Error kind raised by the collection on an id collision. -/
inductive IndexErr
  | writeConflict
deriving DecidableEq

/-- Whether an id is already present in the collection. -/
def hasId {E : Type} (idx : Index E) (i : Nat × Nat × Nat) : Bool :=
  idx.entries.any (fun e => e.eid = i)

/-- Modelled from the spec, section 4.4 (the Vector Index is an external
collaborator): `collection.add` appends the new entries and fails if any id
already exists in the collection, with no implicit overwrite. -/
def collection_add {E : Type} (idx : Index E) (new : List (Entry E)) : Except IndexErr (Index E) :=
  if new.any (fun e => hasId idx e.eid) then Except.error IndexErr.writeConflict
  else Except.ok ⟨idx.entries ++ new⟩

/-- Lines 195-199 of `add_document_text`: the ids
`f"{sha1(source_name)}_{i}_{uuid.uuid4().hex[:8]}"`, the embeddings and the
metadatas `{"source": source_name, "chunk": i}`, paired positionally with the
chunks.  `sha1` and the uuid suffix source are oracles. -/
def mintEntries {E : Type} (encode : List Char → E) (sha1 : List Char → Nat)
    (uuidHex : Nat → Nat) (source_name : List Char) (chunks : List (List Char)) : List (Entry E) :=
  chunks.enum.map (fun p => ⟨(sha1 source_name, p.1, uuidHex p.1), encode p.2, p.2, source_name, p.1⟩)

/-- Line 189 of `add_document_text`: the chunks of the text that are non-empty
after trimming, with the default `chunk_size=800, overlap=120` of line 47. -/
def chunksOf (full_text : List Char) : List (List Char) :=
  (split_text full_text 800 120).filter (fun c => !(pyStrip c).isEmpty)

/-- `add_document_text(full_text, source_name)` (lines 184-205): split with the
default `chunk_size=800, overlap=120`, drop chunks that are empty after
trimming, return 0 on no chunks, otherwise embed, mint ids/metadatas and issue
the single `collection.add` call. -/
def add_document_text {E : Type} (encode : List Char → E) (sha1 : List Char → Nat)
    (uuidHex : Nat → Nat) (idx : Index E) (full_text source_name : List Char) :
    Except IndexErr (Nat × Index E) :=
  let chunks := chunksOf full_text
  if chunks.isEmpty then Except.ok (0, idx)
  else
    (collection_add idx (mintEntries encode sha1 uuidHex source_name chunks)).map
      (fun idx2 => (chunks.length, idx2))

/-- `ingest_file_to_chroma(path, source_name)` (lines 208-217): extract, return
`(0, extractor)` without touching the index on empty or whitespace-only text,
otherwise index via `add_document_text`.  Returns the new index state. -/
def ingest_file_to_chroma {E : Type} (runExt : ExtractorTag → List Char → Except Unit (List Char))
    (encode : List Char → E) (sha1 : List Char → Nat) (uuidHex : Nat → Nat)
    (idx : Index E) (path source_name : List Char) :
    Except IndexErr ((Nat × String) × Index E) :=
  let r := extract_text_generic runExt path
  if r.1.isEmpty || (pyStrip r.1).isEmpty then Except.ok ((0, r.2), idx)
  else
    (add_document_text encode sha1 uuidHex idx r.1 source_name).map
      (fun p => ((p.1, r.2), p.2))

/-- Ordering of query results by distance (first component). -/
def distLE (a b : Nat × List Char) : Prop := a.1 ≤ b.1

instance : DecidableRel distLE := fun a b => Nat.decLe a.1 b.1

instance : IsTotal (Nat × List Char) distLE := ⟨fun a b => Nat.le_total a.1 b.1⟩

instance : IsTrans (Nat × List Char) distLE := ⟨fun _ _ _ h1 h2 => Nat.le_trans h1 h2⟩

/-- The stored `(distance to the query, document)` pairs, sorted nearest
first under the index's distance metric. -/
def rankedPairs {E : Type} (dist : E → E → Nat) (idx : Index E) (q : E) :
    List (Nat × List Char) :=
  (idx.entries.map (fun e => (dist q e.embedding, e.document))).insertionSort distLE

/-- Modelled from the spec, section 4.4 (external collaborator):
`collection.query` returns the documents of the `top_k` stored entries nearest
to the query embedding, nearest first; when fewer than `top_k` entries are
stored it returns all of them. -/
def queryIndex {E : Type} (dist : E → E → Nat) (idx : Index E) (q : E) (top_k : Nat) :
    List (List Char) :=
  ((rankedPairs dist idx q).take top_k).map (fun p => p.2)

/-- `get_relevant_chunks(query, top_k)` (lines 220-228): embed the query, run
the nearest-neighbor query and join the returned documents with newlines. -/
def get_relevant_chunks {E : Type} (encodeOne : List Char → E) (dist : E → E → Nat)
    (idx : Index E) (query : List Char) (top_k : Nat) : List Char :=
  joinNL (queryIndex dist idx (encodeOne query) top_k)

/-- The `collection.query` call as a state transformer on the collection: a
read returning the result and the (unchanged) collection state. -/
def collection_query {E : Type} (dist : E → E → Nat) (idx : Index E) (q : E) (top_k : Nat) :
    List (List Char) × Index E :=
  (queryIndex dist idx q top_k, idx)

/-- `get_relevant_chunks` in state-passing form: its only interaction with the
collection is the `collection.query` read. -/
def get_relevant_chunksSt {E : Type} (encodeOne : List Char → E) (dist : E → E → Nat)
    (idx : Index E) (query : List Char) (top_k : Nat) : List Char × Index E :=
  let r := collection_query dist idx (encodeOne query) top_k
  (joinNL r.1, r.2)

/-- A concrete extractor oracle returning a single blank, for instantiations. -/
def oracleWS : ExtractorTag → List Char → Except Unit (List Char) :=
  fun _ _ => Except.ok [' ']

/-- A concrete embedding function on `Nat` vectors, for instantiations. -/
def encN : List Char → Nat := fun c => c.length

/-- A concrete stand-in hash function, for instantiations. -/
def shaN : List Char → Nat := fun s => s.length

/-- A concrete distance on `Nat` embeddings, for instantiations. -/
def distN : Nat → Nat → Nat := fun a b => (a - b) + (b - a)

example : paragraphsOf ("  a \r\n\nbb ".data) = ["a".data, "bb".data] := by decide

example : accumChunks 3 ["a".data, "b".data, "ccc".data] =
    [('a' :: '\n' :: 'b' :: []), "ccc".data] := by decide

example : split_textF 40 8 3 "abcdefghijklm".data =
    some ["abcdefgh".data, "fghijklm".data, "klm".data] := by decide

example : split_textF 5 1 1 "ab".data = none := by decide

example : joinNL ["a".data, "bb".data] = ('a' :: '\n' :: 'b' :: 'b' :: []) := by decide

example : splitext_ext "dir/doc.PDF".data = ".PDF".data := by decide

example : splitext_ext "dir.d/noext".data = [] := by decide

example : splitext_ext "/home/.bashrc".data = [] := by decide

example : splitext_ext "a.b.csv".data = ".csv".data := by decide

/-- The extractor identifier reported by `extract_text_generic` is always the
name of the extractor selected from the lowercased extension, whatever the
extractor itself does. -/
theorem extract_text_generic_name (runExt : ExtractorTag → List Char → Except Unit (List Char))
    (path : List Char) :
    (extract_text_generic runExt path).2 =
      extractorName (selectExtractor (pyLower (splitext_ext path))) := by
  cases h : runExt (selectExtractor (pyLower (splitext_ext path))) path <;>
    simp [extract_text_generic, h]

/-- C6: for every file path and extension, `extract_text_generic` returns a
(text, extractor-identifier) pair and never propagates an exception raised by
the selected format extractor: a raised exception (modelled by an `error`
result of the extractor oracle) is converted to an empty-text result carrying
the identifier of the extractor that was attempted. -/
theorem C6_extract_never_raises (runExt : ExtractorTag → List Char → Except Unit (List Char))
    (path : List Char) :
    extract_text_generic runExt path =
      (((runExt (selectExtractor (pyLower (splitext_ext path))) path).toOption).getD [],
        extractorName (selectExtractor (pyLower (splitext_ext path)))) := by
  unfold extract_text_generic
  cases h : runExt (selectExtractor (pyLower (splitext_ext path))) path <;>
    simp [h, Except.toOption]

/-- C9: the router selects exactly one extraction procedure determined by the
lowercased extension: pdf/docx/pptx structural, xlsx/xls/csv tabular, html/htm
tag-stripping, txt/md plain text, jpg/jpeg/png/webp/gif/tif/tiff OCR (empty
text when OCR is unavailable), and every unrecognized extension falls back to
the plain-text decode. -/
theorem C9_router_dispatch (runExt : ExtractorTag → List Char → Except Unit (List Char))
    (path ext : List Char)
    (h : ext ∉ [".pdf".data, ".docx".data, ".pptx".data, ".xlsx".data, ".xls".data,
      ".csv".data, ".html".data, ".htm".data, ".txt".data, ".md".data, ".jpg".data,
      ".jpeg".data, ".png".data, ".webp".data, ".gif".data, ".tif".data, ".tiff".data]) :
    (selectExtractor ".pdf".data = ExtractorTag.pdf ∧
      selectExtractor ".docx".data = ExtractorTag.docx ∧
      selectExtractor ".pptx".data = ExtractorTag.pptx ∧
      selectExtractor ".xlsx".data = ExtractorTag.excel ∧
      selectExtractor ".xls".data = ExtractorTag.excel ∧
      selectExtractor ".csv".data = ExtractorTag.csv ∧
      selectExtractor ".html".data = ExtractorTag.html ∧
      selectExtractor ".htm".data = ExtractorTag.html ∧
      selectExtractor ".txt".data = ExtractorTag.txt ∧
      selectExtractor ".md".data = ExtractorTag.txt ∧
      selectExtractor ".jpg".data = ExtractorTag.image ∧
      selectExtractor ".jpeg".data = ExtractorTag.image ∧
      selectExtractor ".png".data = ExtractorTag.image ∧
      selectExtractor ".webp".data = ExtractorTag.image ∧
      selectExtractor ".gif".data = ExtractorTag.image ∧
      selectExtractor ".tif".data = ExtractorTag.image ∧
      selectExtractor ".tiff".data = ExtractorTag.image) ∧
    selectExtractor ext = ExtractorTag.txt ∧
    (extract_text_generic runExt path).2 =
      extractorName (selectExtractor (pyLower (splitext_ext path))) ∧
    (∀ ocr p, extract_text_from_image false ocr p = Except.ok []) ∧
    (extract_text_generic runExt "a/b.PDF".data).2 = "extract_text_from_pdf" := by
  refine ⟨by decide, ?_, extract_text_generic_name runExt path, fun ocr p => rfl, ?_⟩
  · simp only [List.mem_cons, List.not_mem_nil, or_false, not_or] at h
    obtain ⟨h1, h2, h3, h4, h5, h6, h7, h8, h9, h10, h11, h12, h13, h14, h15, h16, h17⟩ := h
    simp [selectExtractor, EXT_MAP, h1, h2, h3, h4, h5, h6, h7, h8, h9, h10,
      h11, h12, h13, h14, h15, h16, h17]
  · rw [extract_text_generic_name]
    decide

/-- Witness for C9 at the unrecognized extension `.xyz`. -/
theorem C9_router_dispatch_witness :
    (".xyz".data ∉ [".pdf".data, ".docx".data, ".pptx".data, ".xlsx".data, ".xls".data,
      ".csv".data, ".html".data, ".htm".data, ".txt".data, ".md".data, ".jpg".data,
      ".jpeg".data, ".png".data, ".webp".data, ".gif".data, ".tif".data, ".tiff".data]) ∧
    (selectExtractor ".xyz".data = ExtractorTag.txt ∧
      (extract_text_generic oracleWS "f.txt".data).2 =
        extractorName (selectExtractor (pyLower (splitext_ext "f.txt".data)))) :=
  ⟨by decide,
    ((C9_router_dispatch oracleWS "f.txt".data ".xyz".data (by decide)).2.1),
    ((C9_router_dispatch oracleWS "f.txt".data ".xyz".data (by decide)).2.2.1)⟩

/-- C4: ingesting a file whose extraction yields empty or whitespace-only text
returns `(0, extractor_name)` and performs zero writes to the vector index:
the index state after the call is the index state before it. -/
theorem C4_whitespace_ingest_writes_nothing {E : Type}
    (runExt : ExtractorTag → List Char → Except Unit (List Char))
    (encode : List Char → E) (sha1 : List Char → Nat) (uuidHex : Nat → Nat)
    (idx : Index E) (path source_name : List Char)
    (h : pyStrip (extract_text_generic runExt path).1 = []) :
    ingest_file_to_chroma runExt encode sha1 uuidHex idx path source_name =
      Except.ok ((0, (extract_text_generic runExt path).2), idx) := by
  unfold ingest_file_to_chroma
  have h2 : (pyStrip (extract_text_generic runExt path).1).isEmpty = true := by
    rw [h]; rfl
  simp [h2]

/-- Witness for C4: a whitespace-only extraction on a concrete index. -/
theorem C4_whitespace_ingest_writes_nothing_witness :
    pyStrip (extract_text_generic oracleWS "doc.txt".data).1 = [] ∧
    ingest_file_to_chroma oracleWS encN shaN (fun i => i) (⟨[]⟩ : Index Nat)
        "doc.txt".data "src".data =
      Except.ok ((0, (extract_text_generic oracleWS "doc.txt".data).2), (⟨[]⟩ : Index Nat)) :=
  ⟨by decide,
    C4_whitespace_ingest_writes_nothing oracleWS encN shaN (fun i => i) ⟨[]⟩
      "doc.txt".data "src".data (by decide)⟩

/-- Any member of a list is bounded by the fold of `max` over it. -/
theorem le_foldr_max (l : List Nat) (a : Nat) (ha : a ∈ l) : a ≤ l.foldr max 0 := by
  induction l with
  | nil => cases ha
  | cons b t ih =>
    rcases List.mem_cons.mp ha with h | h
    · subst h; exact Nat.le_max_left a (t.foldr max 0)
    · exact Nat.le_trans (ih h) (Nat.le_max_right b (t.foldr max 0))

/-- With a positive advance (`overlap < chunk_size`), the hard-slice loop
finishes within any fuel exceeding the remaining character count. -/
theorem sliceLoopF_isSome (chunk_size overlap : Nat) (hov : overlap < chunk_size) :
    ∀ (fuel : Nat) (c : List Char) (start : Nat), c.length - start < fuel →
      (sliceLoopF chunk_size overlap fuel c start).isSome = true := by
  intro fuel
  induction fuel with
  | zero => intro c start h; omega
  | succ fuel ih =>
    intro c start h
    simp only [sliceLoopF]
    by_cases hs : start < c.length
    · rw [if_pos hs]
      have h2 : c.length - (start + (chunk_size - overlap)) < fuel := by omega
      have hrec := ih c (start + (chunk_size - overlap)) h2
      cases hr : sliceLoopF chunk_size overlap fuel c (start + (chunk_size - overlap)) with
      | none => rw [hr] at hrec; simp at hrec
      | some rest => simp
    · rw [if_neg hs]
      rfl

/-- With a positive advance, every paragraph-level chunk slices successfully
within fuel exceeding its length. -/
theorem chunkPieceF_isSome (fuel chunk_size overlap : Nat) (hov : overlap < chunk_size)
    (c : List Char) (hfuel : c.length < fuel) :
    (chunkPieceF fuel chunk_size overlap c).isSome = true := by
  unfold chunkPieceF
  by_cases hlen : c.length ≤ chunk_size
  · rw [if_pos hlen]; rfl
  · rw [if_neg hlen]
    exact sliceLoopF_isSome chunk_size overlap hov fuel c 0 (by omega)

/-- With a positive advance and enough fuel for every chunk, the whole pieces
computation succeeds. -/
theorem piecesF_isSome (fuel chunk_size overlap : Nat) (hov : overlap < chunk_size)
    (cs : List (List Char)) (hfuel : ∀ c ∈ cs, c.length < fuel) :
    (piecesF fuel chunk_size overlap cs).isSome = true := by
  induction cs with
  | nil => rfl
  | cons c rest ih =>
    have hc := chunkPieceF_isSome fuel chunk_size overlap hov c (hfuel c (by simp))
    have hr := ih (fun d hd => hfuel d (by simp [hd]))
    simp only [piecesF]
    cases h1 : chunkPieceF fuel chunk_size overlap c with
    | none => rw [h1] at hc; simp at hc
    | some p =>
      cases h2 : piecesF fuel chunk_size overlap rest with
      | none => rw [h2] at hr; simp at hr
      | some ps => rfl

/-- At the canonical fuel `fuelFor`, `split_text` computes: the fueled loop
returns `some` of the total function's value whenever `overlap < chunk_size`. -/
theorem split_textF_fuelFor_eq (chunk_size overlap : Nat) (hov : overlap < chunk_size)
    (text : List Char) :
    split_textF (fuelFor chunk_size text) chunk_size overlap text =
      some (split_text text chunk_size overlap) := by
  have h : (split_textF (fuelFor chunk_size text) chunk_size overlap text).isSome = true := by
    unfold split_textF
    have := piecesF_isSome (fuelFor chunk_size text) chunk_size overlap hov
      (accumChunks chunk_size (paragraphsOf text)) ?_
    · cases hp : piecesF (fuelFor chunk_size text) chunk_size overlap
          (accumChunks chunk_size (paragraphsOf text)) with
      | none => rw [hp] at this; simp at this
      | some ps => simp
    · intro c hc
      have : c.length ≤ ((accumChunks chunk_size (paragraphsOf text)).map List.length).foldr
          max 0 :=
        le_foldr_max _ _ (List.mem_map_of_mem List.length hc)
      unfold fuelFor
      omega
  obtain ⟨v, hv⟩ := Option.isSome_iff_exists.mp h
  rw [hv]
  unfold split_text
  rw [hv]
  rfl

/-- When `overlap = chunk_size` the hard-slice loop never advances: on the
oversized paragraph `"ab"` with `chunk_size = overlap = 1` it exhausts any
amount of fuel. -/
theorem sliceLoopF_stuck (fuel : Nat) : sliceLoopF 1 1 fuel "ab".data 0 = none := by
  induction fuel with
  | zero => rfl
  | succ fuel ih =>
    simp only [sliceLoopF]
    rw [if_pos (by decide)]
    have : (0 : Nat) + (1 - 1) = 0 := rfl
    rw [this, ih]

/-- `split_text("ab", 1, 1)` diverges: no amount of fuel completes it, and no
configuration check rejects it first. -/
theorem split_textF_stuck (fuel : Nat) : split_textF fuel 1 1 "ab".data = none := by
  have hacc : accumChunks 1 (paragraphsOf "ab".data) = ["ab".data] := by decide
  unfold split_textF
  rw [hacc]
  simp only [piecesF, chunkPieceF]
  rw [if_neg (by decide), sliceLoopF_stuck fuel]
  rfl

/-- Counterexample to C1 as stated: the call `split_text("ab", chunk_size=1,
overlap=1)` is not rejected as a configuration error - it enters the
hard-slice loop, which does not advance, so even 1000 loop iterations of fuel
produce no result (the helper lemma shows the same for every fuel). -/
theorem C1_counterexample : split_textF 1000 1 1 "ab".data = none :=
  split_textF_stuck 1000

/-- C1 (amended): the code contains no overlap/chunk_size guard, but for every
configuration with `overlap < chunk_size` - in particular the default
`chunk_size=800, overlap=120`, the only configuration reachable at call time -
the hard-slice loop advances and `split_text` terminates on every text: the
fueled loop completes within the canonical fuel and returns the total
function's value. -/
theorem C1_split_text_terminates (chunk_size overlap : Nat) (hov : overlap < chunk_size)
    (text : List Char) :
    split_textF (fuelFor chunk_size text) chunk_size overlap text =
      some (split_text text chunk_size overlap) :=
  split_textF_fuelFor_eq chunk_size overlap hov text

/-- Witness for C1 at the default configuration. -/
theorem C1_split_text_terminates_witness :
    120 < 800 ∧
    split_textF (fuelFor 800 "ab".data) 800 120 "ab".data =
      some (split_text "ab".data 800 120) :=
  ⟨by decide, C1_split_text_terminates 800 120 (by decide) "ab".data⟩

/-- Every window produced by the hard-slice loop has at most `chunk_size`
characters. -/
theorem sliceLoopF_mem_length (chunk_size overlap : Nat) :
    ∀ (fuel : Nat) (c : List Char) (start : Nat) (ws : List (List Char)),
      sliceLoopF chunk_size overlap fuel c start = some ws →
      ∀ w ∈ ws, w.length ≤ chunk_size := by
  intro fuel
  induction fuel with
  | zero => intro c start ws h; cases h
  | succ fuel ih =>
    intro c start ws h
    simp only [sliceLoopF] at h
    split at h
    · split at h
      · cases h
      · rename_i rest hr
        obtain rfl := Option.some.inj h
        intro w hw
        rcases List.mem_cons.mp hw with h1 | h1
        · subst h1
          exact le_trans (le_of_eq (List.length_take _ _)) (min_le_left _ _)
        · exact ih c _ rest hr w h1
    · obtain rfl := Option.some.inj h
      intro w hw
      cases hw

/-- Each piece list of a successful `piecesF` run comes from one
paragraph-level chunk. -/
theorem piecesF_mem {fuel chunk_size overlap : Nat} :
    ∀ {cs : List (List Char)} {ps : List (List (List Char))},
      piecesF fuel chunk_size overlap cs = some ps →
      ∀ p ∈ ps, ∃ c ∈ cs, chunkPieceF fuel chunk_size overlap c = some p := by
  intro cs
  induction cs with
  | nil =>
    intro ps h p hp
    obtain rfl := Option.some.inj h
    cases hp
  | cons c rest ih =>
    intro ps h p hp
    simp only [piecesF] at h
    split at h
    · rename_i q qs hq hqs
      obtain rfl := Option.some.inj h
      rcases List.mem_cons.mp hp with h1 | h1
      · subst h1
        exact ⟨c, by simp, hq⟩
      · obtain ⟨d, hd, hdp⟩ := ih hqs p h1
        exact ⟨d, by simp [hd], hdp⟩
    · cases h

/-- C2: for every input text and every `chunk_size` and `overlap` with
`overlap < chunk_size`, every chunk returned by `split_text` has length at
most `chunk_size`. -/
theorem C2_chunk_length_bounded (chunk_size overlap : Nat) (hov : overlap < chunk_size)
    (text : List Char) :
    ∀ chunk ∈ split_text text chunk_size overlap, chunk.length ≤ chunk_size := by
  intro chunk hc
  have heq := split_textF_fuelFor_eq chunk_size overlap hov text
  unfold split_textF at heq
  cases hp : piecesF (fuelFor chunk_size text) chunk_size overlap
      (accumChunks chunk_size (paragraphsOf text)) with
  | none => rw [hp] at heq; cases heq
  | some ps =>
    rw [hp] at heq
    simp only [Option.map, Option.some.injEq] at heq
    rw [← heq] at hc
    obtain ⟨p, hpmem, hcp⟩ := List.mem_flatten.mp hc
    obtain ⟨c, _, hcp2⟩ := piecesF_mem hp p hpmem
    unfold chunkPieceF at hcp2
    by_cases hlen : c.length ≤ chunk_size
    · rw [if_pos hlen] at hcp2
      obtain rfl := Option.some.inj hcp2
      rcases List.mem_singleton.mp hcp with rfl
      exact hlen
    · rw [if_neg hlen] at hcp2
      exact sliceLoopF_mem_length chunk_size overlap _ c 0 p hcp2 chunk hcp

/-- Witness for C2: a 13-character single paragraph sliced with
`chunk_size=8, overlap=3`; the first returned chunk has length at most 8. -/
theorem C2_chunk_length_bounded_witness :
    3 < 8 ∧
    "abcdefgh".data ∈ split_text "abcdefghijklm".data 8 3 ∧
    ("abcdefgh".data).length ≤ 8 :=
  ⟨by decide, by decide,
    C2_chunk_length_bounded 8 3 (by decide) "abcdefghijklm".data "abcdefgh".data (by decide)⟩

/-- Unfolding `joinNL` on a cons with a non-empty tail. -/
theorem joinNL_cons_ne (x : List Char) {l : List (List Char)} (h : l ≠ []) :
    joinNL (x :: l) = x ++ '\n' :: joinNL l := by
  cases l with
  | nil => cases h rfl
  | cons y t => rfl

/-- Merging two adjacent elements with an inline newline separator does not
change the newline join. -/
theorem joinNL_merge (a b : List Char) :
    ∀ (xs ys : List (List Char)),
      joinNL (xs ++ (a ++ '\n' :: b) :: ys) = joinNL (xs ++ a :: b :: ys) := by
  intro xs
  induction xs with
  | nil =>
    intro ys
    cases ys with
    | nil => simp [joinNL]
    | cons y t =>
      rw [List.nil_append, List.nil_append]
      rw [joinNL_cons_ne _ (by simp), joinNL_cons_ne a (by simp), joinNL_cons_ne b (by simp)]
      simp
  | cons x xs ih =>
    intro ys
    rw [List.cons_append, List.cons_append]
    rw [joinNL_cons_ne x (by simp), joinNL_cons_ne x (by simp), ih ys]

/-- Invariant of the greedy accumulation loop: its output's newline join is
the join of the flushed chunks, the current buffer and the pending
paragraphs. -/
theorem joinNL_accumLoop (chunk_size : Nat) :
    ∀ (ps : List (List Char)), (∀ p ∈ ps, p ≠ []) →
      ∀ (chunks : List (List Char)) (buf : List Char),
        joinNL (accumLoop chunk_size ps chunks buf) =
          joinNL (chunks ++ (if buf.isEmpty then [] else [buf]) ++ ps) := by
  intro ps
  induction ps with
  | nil =>
    intro _ chunks buf
    simp only [accumLoop]
    by_cases hb : buf.isEmpty
    · rw [if_pos hb, if_pos hb]; simp
    · rw [if_neg hb, if_neg hb]; simp
  | cons p rest ih =>
    intro hne chunks buf
    have hpne : p ≠ [] := hne p (by simp)
    have hpe : p.isEmpty = false := by
      cases p with
      | nil => cases hpne rfl
      | cons a t => rfl
    have hrest : ∀ q ∈ rest, q ≠ [] := fun q hq => hne q (by simp [hq])
    simp only [accumLoop]
    by_cases hfit : buf.length + p.length + 1 ≤ chunk_size
    · rw [if_pos hfit]
      by_cases hb : buf.isEmpty
      · rw [if_pos hb, ih hrest chunks p, hpe, if_pos hb]
        simp
      · rw [if_neg hb, ih hrest chunks (buf ++ '\n' :: p)]
        have hbp : (buf ++ '\n' :: p).isEmpty = false := by
          cases buf <;> rfl
        rw [hbp, if_neg hb]
        simp only [List.append_assoc, List.singleton_append]
        exact joinNL_merge buf p chunks rest
    · rw [if_neg hfit]
      by_cases hb : buf.isEmpty
      · rw [if_pos hb, ih hrest chunks p, hpe, if_pos hb]
        simp
      · rw [if_neg hb, ih hrest (chunks ++ [buf]) p, hpe, if_neg hb]
        simp

/-- The newline join of the greedily accumulated chunks equals the newline
join of the (non-empty) paragraphs. -/
theorem joinNL_accumChunks (chunk_size : Nat) (ps : List (List Char))
    (hne : ∀ p ∈ ps, p ≠ []) :
    joinNL (accumChunks chunk_size ps) = joinNL ps := by
  unfold accumChunks
  rw [joinNL_accumLoop chunk_size ps hne [] []]
  rfl

/-- The paragraphs produced by `split_text`'s normalization are non-empty. -/
theorem paragraphsOf_ne_nil (text : List Char) : ∀ p ∈ paragraphsOf text, p ≠ [] := by
  intro p hp
  unfold paragraphsOf at hp
  have := (List.mem_filter.mp hp).2
  simpa using this

/-- Every window of the hard-slice loop started at `start` has at most
`c.length - start` characters. -/
theorem sliceLoopF_window_le (chunk_size overlap : Nat) :
    ∀ (fuel : Nat) (c : List Char) (start : Nat) (ws : List (List Char)),
      sliceLoopF chunk_size overlap fuel c start = some ws →
      ∀ w ∈ ws, w.length ≤ c.length - start := by
  intro fuel
  induction fuel with
  | zero => intro c start ws h; cases h
  | succ fuel ih =>
    intro c start ws h
    simp only [sliceLoopF] at h
    split at h
    · split at h
      · cases h
      · rename_i rest hr
        obtain rfl := Option.some.inj h
        intro w hw
        rcases List.mem_cons.mp hw with h1 | h1
        · subst h1
          rw [List.length_take, List.length_drop]
          exact min_le_right _ _
        · have h2 := ih c _ rest hr w h1
          omega
    · obtain rfl := Option.some.inj h
      intro w hw
      cases hw

/-- A successful hard-slice run started strictly inside the text begins with
the window at `start`. -/
theorem sliceLoopF_some_cons {chunk_size overlap fuel : Nat} {c : List Char} {start : Nat}
    {ws : List (List Char)} (hs : start < c.length)
    (h : sliceLoopF chunk_size overlap fuel c start = some ws) :
    ∃ t, ws = ((c.drop start).take chunk_size) :: t := by
  cases fuel with
  | zero => cases h
  | succ fuel =>
    simp only [sliceLoopF] at h
    rw [if_pos hs] at h
    split at h
    · cases h
    · rename_i rest hr
      exact ⟨rest, (Option.some.inj h).symm⟩

/-- Reconstruction for the hard-slice loop: the first window followed by the
after-overlap portions of the later windows is exactly the sliced text. -/
theorem sliceLoopF_reconstruct (chunk_size overlap : Nat) (hov : overlap < chunk_size) :
    ∀ (fuel : Nat) (c : List Char) (start : Nat) (ws : List (List Char)),
      sliceLoopF chunk_size overlap fuel c start = some ws →
      dropOverlapJoin overlap ws = c.drop start := by
  intro fuel
  induction fuel with
  | zero => intro c start ws h; cases h
  | succ fuel ih =>
    intro c start ws h
    simp only [sliceLoopF] at h
    split at h
    · rename_i hs
      split at h
      · cases h
      · rename_i rest hr
        obtain rfl := Option.some.inj h
        simp only [dropOverlapJoin]
        by_cases hend : c.length ≤ start + chunk_size
        · have hw : (c.drop start).take chunk_size = c.drop start := by
            apply List.take_of_length_le
            rw [List.length_drop]
            omega
          have hrest0 : (rest.map (List.drop overlap)).flatten = [] := by
            apply List.flatten_eq_nil_iff.mpr
            intro x hx
            obtain ⟨w, hw2, rfl⟩ := List.mem_map.mp hx
            have hlen := sliceLoopF_window_le chunk_size overlap fuel c _ rest hr w hw2
            apply List.drop_eq_nil_of_le
            omega
          rw [hw, hrest0, List.append_nil]
        · push_neg at hend
          have hs2 : start + (chunk_size - overlap) < c.length := by omega
          obtain ⟨t, rfl⟩ := sliceLoopF_some_cons hs2 hr
          have hIH := ih c (start + (chunk_size - overlap)) _ hr
          simp only [dropOverlapJoin] at hIH
          simp only [List.map_cons, List.flatten_cons]
          have hw2len : overlap ≤
              ((c.drop (start + (chunk_size - overlap))).take chunk_size).length := by
            rw [List.length_take, List.length_drop]
            omega
          rw [← List.drop_append_of_le_length hw2len, hIH, List.drop_drop]
          have he1 : start + (chunk_size - overlap) + overlap = start + chunk_size := by omega
          rw [he1]
          have hdd : (c.drop start).drop chunk_size = c.drop (start + chunk_size) :=
            List.drop_drop _ _ _
          rw [← hdd, List.take_append_drop]
    · rename_i hs
      obtain rfl := Option.some.inj h
      simp only [dropOverlapJoin]
      symm
      apply List.drop_eq_nil_of_le
      omega

/-- Reconstruction for one paragraph-level chunk's piece list. -/
theorem chunkPieceF_reconstruct (fuel chunk_size overlap : Nat) (hov : overlap < chunk_size)
    (c : List Char) (p : List (List Char)) (h : chunkPieceF fuel chunk_size overlap c = some p) :
    dropOverlapJoin overlap p = c := by
  unfold chunkPieceF at h
  by_cases hlen : c.length ≤ chunk_size
  · rw [if_pos hlen] at h
    obtain rfl := Option.some.inj h
    simp [dropOverlapJoin]
  · rw [if_neg hlen] at h
    have h2 := sliceLoopF_reconstruct chunk_size overlap hov fuel c 0 p h
    simpa using h2

/-- Reconstruction for the full pieces computation: undoing the overlaps
recovers the paragraph-level chunks. -/
theorem piecesF_reconstruct (fuel chunk_size overlap : Nat) (hov : overlap < chunk_size) :
    ∀ (cs : List (List Char)) (ps : List (List (List Char))),
      piecesF fuel chunk_size overlap cs = some ps →
      ps.map (dropOverlapJoin overlap) = cs := by
  intro cs
  induction cs with
  | nil =>
    intro ps h
    obtain rfl := Option.some.inj h
    rfl
  | cons c rest ih =>
    intro ps h
    simp only [piecesF] at h
    split at h
    · rename_i q qs hq hqs
      obtain rfl := Option.some.inj h
      simp only [List.map_cons]
      rw [chunkPieceF_reconstruct fuel chunk_size overlap hov c q hq, ih qs hqs]
    · cases h

/-- C3: for `overlap < chunk_size`, the chunk list returned by `split_text`
is the flattening of the per-paragraph piece lists, and concatenating the
non-overlapping portions of those pieces (each continuation window
contributing its characters after the first `overlap`) reconstructs the
newline-joined sequence of trimmed non-empty paragraphs of the input. -/
theorem C3_reconstruction (chunk_size overlap : Nat) (hov : overlap < chunk_size)
    (text : List Char) (ps : List (List (List Char)))
    (hps : piecesF (fuelFor chunk_size text) chunk_size overlap
      (accumChunks chunk_size (paragraphsOf text)) = some ps) :
    split_text text chunk_size overlap = ps.flatten ∧
    joinNL (ps.map (dropOverlapJoin overlap)) = joinNL (paragraphsOf text) := by
  constructor
  · unfold split_text split_textF
    rw [hps]
    rfl
  · rw [piecesF_reconstruct _ _ _ hov _ ps hps]
    exact joinNL_accumChunks chunk_size (paragraphsOf text) (paragraphsOf_ne_nil text)

/-- Witness for C3: a 13-character paragraph hard-sliced with `chunk_size=8,
overlap=3` reconstructs to the original text. -/
theorem C3_reconstruction_witness :
    3 < 8 ∧
    split_text "abcdefghijklm".data 8 3 =
      ([["abcdefgh".data, "fghijklm".data, "klm".data]] : List (List (List Char))).flatten ∧
    joinNL (([["abcdefgh".data, "fghijklm".data, "klm".data]] :
        List (List (List Char))).map (dropOverlapJoin 3)) =
      joinNL (paragraphsOf "abcdefghijklm".data) :=
  ⟨by decide,
    (C3_reconstruction 8 3 (by decide) "abcdefghijklm".data
      [["abcdefgh".data, "fghijklm".data, "klm".data]] (by decide)).1,
    (C3_reconstruction 8 3 (by decide) "abcdefghijklm".data
      [["abcdefgh".data, "fghijklm".data, "klm".data]] (by decide)).2⟩

/-- Mapping a constant function yields a replicated list. -/
theorem map_constant {α β : Type} (l : List α) (b : β) :
    l.map (fun _ => b) = List.replicate l.length b := by
  induction l with
  | nil => rfl
  | cons a t ih => simp [List.replicate, ih]

/-- The length of the minted entry list is the number of chunks. -/
theorem mintEntries_length {E : Type} (encode : List Char → E) (sha1 : List Char → Nat)
    (uuidHex : Nat → Nat) (source_name : List Char) (chunks : List (List Char)) :
    (mintEntries encode sha1 uuidHex source_name chunks).length = chunks.length := by
  simp [mintEntries]

/-- Every minted entry's id is the source hash, its ordinal and the uuid
suffix drawn at that ordinal. -/
theorem eid_of_mem_mintEntries {E : Type} {encode : List Char → E} {sha1 : List Char → Nat}
    {uuidHex : Nat → Nat} {source_name : List Char} {chunks : List (List Char)} {e : Entry E}
    (he : e ∈ mintEntries encode sha1 uuidHex source_name chunks) :
    ∃ i, i < chunks.length ∧ e.eid = (sha1 source_name, i, uuidHex i) := by
  simp only [mintEntries, List.mem_map] at he
  obtain ⟨p, hp, rfl⟩ := he
  obtain ⟨i, hi, hpe⟩ := List.getElem_of_mem hp
  rw [List.getElem_enum] at hpe
  refine ⟨i, by simpa using hi, ?_⟩
  rw [← hpe]

/-- The projections of the minted entry list: documents are the chunks in
sequence order, ordinals are `0, 1, ...`, and every entry carries the source
name and its embedding. -/
theorem mintEntries_projections {E : Type} (encode : List Char → E) (sha1 : List Char → Nat)
    (uuidHex : Nat → Nat) (source_name : List Char) (chunks : List (List Char)) :
    (mintEntries encode sha1 uuidHex source_name chunks).map (fun e => e.document) = chunks ∧
    (mintEntries encode sha1 uuidHex source_name chunks).map (fun e => e.chunk) =
      List.range chunks.length ∧
    (mintEntries encode sha1 uuidHex source_name chunks).map (fun e => e.source) =
      List.replicate chunks.length source_name ∧
    (mintEntries encode sha1 uuidHex source_name chunks).map (fun e => e.embedding) =
      chunks.map encode := by
  refine ⟨?_, ?_, ?_, ?_⟩
  · simp only [mintEntries, List.map_map]
    have : ((fun e : Entry E => e.document) ∘
        (fun p : Nat × List Char => (⟨(sha1 source_name, p.1, uuidHex p.1), encode p.2, p.2,
          source_name, p.1⟩ : Entry E))) = Prod.snd := rfl
    rw [this, List.enum_map_snd]
  · simp only [mintEntries, List.map_map]
    have : ((fun e : Entry E => e.chunk) ∘
        (fun p : Nat × List Char => (⟨(sha1 source_name, p.1, uuidHex p.1), encode p.2, p.2,
          source_name, p.1⟩ : Entry E))) = Prod.fst := rfl
    rw [this, List.enum_map_fst]
  · simp only [mintEntries, List.map_map]
    have h1 : ((fun e : Entry E => e.source) ∘
        (fun p : Nat × List Char => (⟨(sha1 source_name, p.1, uuidHex p.1), encode p.2, p.2,
          source_name, p.1⟩ : Entry E))) = fun _ => source_name := rfl
    rw [h1]
    have h2 : chunks.enum.length = chunks.length := by simp
    rw [← h2]
    exact map_constant chunks.enum source_name
  · simp only [mintEntries, List.map_map]
    have : ((fun e : Entry E => e.embedding) ∘
        (fun p : Nat × List Char => (⟨(sha1 source_name, p.1, uuidHex p.1), encode p.2, p.2,
          source_name, p.1⟩ : Entry E))) = (encode ∘ Prod.snd) := rfl
    rw [this, ← List.map_map, List.enum_map_snd]

/-- Characterization of a successful `add_document_text` call: the returned
count is the number of non-empty chunks and the index grows by exactly the
minted entries, appended in one batch. -/
theorem add_document_text_ok {E : Type} {encode : List Char → E} {sha1 : List Char → Nat}
    {uuidHex : Nat → Nat} {idx : Index E} {full_text source_name : List Char}
    {n : Nat} {idx2 : Index E}
    (h : add_document_text encode sha1 uuidHex idx full_text source_name = Except.ok (n, idx2)) :
    n = (chunksOf full_text).length ∧
    idx2.entries = idx.entries ++ mintEntries encode sha1 uuidHex source_name (chunksOf full_text) := by
  simp only [add_document_text] at h
  by_cases hc : (chunksOf full_text).isEmpty
  · rw [if_pos hc] at h
    have hce : chunksOf full_text = [] := by simpa [List.isEmpty_iff] using hc
    simp only [Except.ok.injEq, Prod.mk.injEq] at h
    obtain ⟨hn, hidx⟩ := h
    subst hn hidx
    simp [hce, mintEntries]
  · rw [if_neg hc] at h
    simp only [collection_add] at h
    by_cases hdup : (mintEntries encode sha1 uuidHex source_name (chunksOf full_text)).any
        (fun e => hasId idx e.eid)
    · rw [if_pos hdup] at h
      simp [Except.map] at h
    · rw [if_neg hdup] at h
      simp only [Except.map, Except.ok.injEq, Prod.mk.injEq] at h
      obtain ⟨hn, hidx⟩ := h
      subst hn hidx
      exact ⟨rfl, rfl⟩

/-- When none of the ids about to be minted is already present, the
`add_document_text` call succeeds and appends its entries. -/
theorem add_document_text_fresh {E : Type} (encode : List Char → E) (sha1 : List Char → Nat)
    (uuidHex : Nat → Nat) (idx : Index E) (full_text source_name : List Char)
    (hfresh : ∀ i, hasId idx (sha1 source_name, i, uuidHex i) = false) :
    add_document_text encode sha1 uuidHex idx full_text source_name =
      Except.ok ((chunksOf full_text).length,
        ⟨idx.entries ++ mintEntries encode sha1 uuidHex source_name (chunksOf full_text)⟩) := by
  simp only [add_document_text]
  by_cases hc : (chunksOf full_text).isEmpty
  · rw [if_pos hc]
    have hce : chunksOf full_text = [] := by simpa [List.isEmpty_iff] using hc
    cases idx
    simp [hce, mintEntries]
  · rw [if_neg hc]
    have hany : (mintEntries encode sha1 uuidHex source_name (chunksOf full_text)).any
        (fun e => hasId idx e.eid) = false := by
      rw [List.any_eq_false]
      intro e he
      obtain ⟨i, _, hei⟩ := eid_of_mem_mintEntries he
      rw [hei, hfresh i]
      simp
    simp [collection_add, hany, Except.map]

/-- C5: for every ingested text, the number of (id, embedding, document,
metadata) records written to the index in the single `collection.add` batch
equals the number of chunks that are non-empty after trimming, that count is
the returned chunk count, and the i-th record carries document = i-th chunk
and metadata `{source: source_name, chunk: i}` in chunk sequence order. -/
theorem C5_upsert_count_and_order {E : Type} (encode : List Char → E) (sha1 : List Char → Nat)
    (uuidHex : Nat → Nat) (idx : Index E) (full_text source_name : List Char)
    (n : Nat) (idx2 : Index E)
    (h : add_document_text encode sha1 uuidHex idx full_text source_name = Except.ok (n, idx2)) :
    n = (chunksOf full_text).length ∧
    idx2.entries = idx.entries ++ mintEntries encode sha1 uuidHex source_name (chunksOf full_text) ∧
    (mintEntries encode sha1 uuidHex source_name (chunksOf full_text)).length = n ∧
    (mintEntries encode sha1 uuidHex source_name (chunksOf full_text)).map
      (fun e => e.document) = chunksOf full_text ∧
    (mintEntries encode sha1 uuidHex source_name (chunksOf full_text)).map
      (fun e => e.chunk) = List.range (chunksOf full_text).length ∧
    (mintEntries encode sha1 uuidHex source_name (chunksOf full_text)).map
      (fun e => e.source) = List.replicate (chunksOf full_text).length source_name ∧
    (mintEntries encode sha1 uuidHex source_name (chunksOf full_text)).map
      (fun e => e.embedding) = (chunksOf full_text).map encode := by
  obtain ⟨hn, hidx⟩ := add_document_text_ok h
  obtain ⟨hd, hc, hs, he⟩ := mintEntries_projections encode sha1 uuidHex source_name
    (chunksOf full_text)
  exact ⟨hn, hidx, by rw [mintEntries_length, hn], hd, hc, hs, he⟩

/-- Witness for C5 on a one-chunk document. -/
theorem C5_upsert_count_and_order_witness :
    add_document_text encN shaN (fun i => 2 * i) (⟨[]⟩ : Index Nat) "a".data "s".data =
      Except.ok (1, ⟨[⟨(1, 0, 0), 1, "a".data, "s".data, 0⟩]⟩) ∧
    1 = (chunksOf "a".data).length ∧
    (mintEntries encN shaN (fun i => 2 * i) "s".data (chunksOf "a".data)).map
      (fun e => e.chunk) = List.range (chunksOf "a".data).length :=
  ⟨rfl,
    (C5_upsert_count_and_order encN shaN (fun i => 2 * i) ⟨[]⟩ "a".data "s".data 1
      ⟨[⟨(1, 0, 0), 1, "a".data, "s".data, 0⟩]⟩ rfl).1,
    (C5_upsert_count_and_order encN shaN (fun i => 2 * i) ⟨[]⟩ "a".data "s".data 1
      ⟨[⟨(1, 0, 0), 1, "a".data, "s".data, 0⟩]⟩ rfl).2.2.2.2.1⟩

/-- C7: for two ingest calls with the same source name whose uuid suffixes are
fresh (the random suffixes of the second call differ from those of the first),
the ids minted by the second call are disjoint from those of the first, so
re-ingesting the same source name does not raise a write conflict and appends
its entries without overwriting the first ingest's entries. -/
theorem C7_reingest_same_source {E : Type} (encode : List Char → E) (sha1 : List Char → Nat)
    (u1 u2 : Nat → Nat) (t1 t2 source_name : List Char) (n1 : Nat) (idx1 : Index E)
    (h1 : add_document_text encode sha1 u1 (⟨[]⟩ : Index E) t1 source_name =
      Except.ok (n1, idx1))
    (_hn1 : 0 < n1)
    (hfresh : ∀ i j, u1 i ≠ u2 j) :
    (∀ e2 ∈ mintEntries encode sha1 u2 source_name (chunksOf t2),
      ∀ e1 ∈ idx1.entries, e2.eid ≠ e1.eid) ∧
    add_document_text encode sha1 u2 idx1 t2 source_name =
      Except.ok ((chunksOf t2).length,
        ⟨idx1.entries ++ mintEntries encode sha1 u2 source_name (chunksOf t2)⟩) := by
  obtain ⟨hn, hent⟩ := add_document_text_ok h1
  have hids : ∀ e1 ∈ idx1.entries, ∃ i, e1.eid = (sha1 source_name, i, u1 i) := by
    intro e1 he1
    rw [hent] at he1
    simp only [List.nil_append] at he1
    obtain ⟨i, _, hi⟩ := eid_of_mem_mintEntries he1
    exact ⟨i, hi⟩
  constructor
  · intro e2 he2 e1 he1
    obtain ⟨j, _, hj⟩ := eid_of_mem_mintEntries he2
    obtain ⟨i, hi⟩ := hids e1 he1
    rw [hj, hi]
    intro hEq
    simp only [Prod.mk.injEq] at hEq
    exact hfresh i j hEq.2.2.symm
  · apply add_document_text_fresh
    intro i
    rw [hasId, List.any_eq_false]
    intro e1 he1
    obtain ⟨i1, hi1⟩ := hids e1 he1
    simp only [hi1, decide_eq_true_eq, Prod.mk.injEq]
    intro hEq
    exact hfresh i1 i hEq.2.2

/-- Witness for C7: two one-chunk ingests of source `s` with disjoint
(even/odd) uuid suffix streams. -/
theorem C7_reingest_same_source_witness :
    (0 : Nat) < 1 ∧
    add_document_text encN shaN (fun j => 2 * j + 1)
        (⟨[⟨(1, 0, 0), 1, "a".data, "s".data, 0⟩]⟩ : Index Nat) "b".data "s".data =
      Except.ok ((chunksOf "b".data).length,
        ⟨(⟨[⟨(1, 0, 0), 1, "a".data, "s".data, 0⟩]⟩ : Index Nat).entries ++
          mintEntries encN shaN (fun j => 2 * j + 1) "s".data (chunksOf "b".data)⟩) :=
  ⟨by decide,
    (C7_reingest_same_source encN shaN (fun i => 2 * i) (fun j => 2 * j + 1)
      "a".data "b".data "s".data 1 ⟨[⟨(1, 0, 0), 1, "a".data, "s".data, 0⟩]⟩ rfl
      (by decide) (fun i j => by show 2 * i ≠ 2 * j + 1; omega)).2⟩

/-- C8: `get_relevant_chunks` returns the documents of the `top_k` nearest
stored entries joined one per line in nearest-first order; when the index
holds fewer than `top_k` entries it returns all available documents, and on an
empty index it returns the empty string - never an error (the function is
total by construction). -/
theorem C8_retrieval_nearest_first {E : Type} (encodeOne : List Char → E)
    (dist : E → E → Nat) (idx : Index E) (q : List Char) (top_k : Nat) :
    get_relevant_chunks encodeOne dist idx q top_k =
      joinNL (queryIndex dist idx (encodeOne q) top_k) ∧
    (queryIndex dist idx (encodeOne q) top_k).length = min top_k idx.entries.length ∧
    (∀ d ∈ queryIndex dist idx (encodeOne q) top_k,
      d ∈ idx.entries.map (fun e => e.document)) ∧
    List.Pairwise distLE ((rankedPairs dist idx (encodeOne q)).take top_k) ∧
    (∀ a ∈ (rankedPairs dist idx (encodeOne q)).take top_k,
      ∀ b ∈ (rankedPairs dist idx (encodeOne q)).drop top_k, a.1 ≤ b.1) ∧
    (rankedPairs dist idx (encodeOne q)).Perm
      (idx.entries.map (fun e => (dist (encodeOne q) e.embedding, e.document))) ∧
    (idx.entries.length ≤ top_k →
      (queryIndex dist idx (encodeOne q) top_k).Perm
        (idx.entries.map (fun e => e.document))) ∧
    (idx.entries = [] → get_relevant_chunks encodeOne dist idx q top_k = []) := by
  have hperm : (rankedPairs dist idx (encodeOne q)).Perm
      (idx.entries.map (fun e => (dist (encodeOne q) e.embedding, e.document))) :=
    List.perm_insertionSort distLE _
  have hsorted : List.Pairwise distLE (rankedPairs dist idx (encodeOne q)) :=
    List.sorted_insertionSort distLE _
  have hlen : (rankedPairs dist idx (encodeOne q)).length = idx.entries.length := by
    rw [hperm.length_eq, List.length_map]
  refine ⟨rfl, ?_, ?_, ?_, ?_, hperm, ?_, ?_⟩
  · rw [queryIndex, List.length_map, List.length_take, hlen]
  · intro d hd
    simp only [queryIndex, List.mem_map] at hd
    obtain ⟨p, hp, rfl⟩ := hd
    have hp2 : p ∈ rankedPairs dist idx (encodeOne q) := List.mem_of_mem_take hp
    have hp3 := hperm.mem_iff.mp hp2
    obtain ⟨e, he, rfl⟩ := List.mem_map.mp hp3
    exact List.mem_map.mpr ⟨e, he, rfl⟩
  · exact List.Pairwise.sublist (List.take_sublist _ _) hsorted
  · intro a ha b hb
    have h2 := hsorted
    rw [← List.take_append_drop top_k (rankedPairs dist idx (encodeOne q))] at h2
    exact (List.pairwise_append.mp h2).2.2 a ha b hb
  · intro hle
    have htake : (rankedPairs dist idx (encodeOne q)).take top_k =
        rankedPairs dist idx (encodeOne q) :=
      List.take_of_length_le (by rw [hlen]; exact hle)
    rw [queryIndex, htake]
    have h2 := hperm.map (fun p : Nat × List Char => p.2)
    simpa [List.map_map] using h2
  · intro he
    simp [get_relevant_chunks, queryIndex, rankedPairs, he, joinNL]

/-- Witness for C8: three stored entries queried with `top_k = 20`. -/
theorem C8_retrieval_nearest_first_witness :
    get_relevant_chunks encN distN
        (⟨[⟨(0, 0, 0), 5, "x".data, "s".data, 0⟩, ⟨(0, 1, 1), 1, "y".data, "s".data, 1⟩,
          ⟨(0, 2, 2), 3, "z".data, "s".data, 2⟩]⟩ : Index Nat) "ab".data 20 =
      joinNL (queryIndex distN
        (⟨[⟨(0, 0, 0), 5, "x".data, "s".data, 0⟩, ⟨(0, 1, 1), 1, "y".data, "s".data, 1⟩,
          ⟨(0, 2, 2), 3, "z".data, "s".data, 2⟩]⟩ : Index Nat) (encN "ab".data) 20) ∧
    (queryIndex distN
        (⟨[⟨(0, 0, 0), 5, "x".data, "s".data, 0⟩, ⟨(0, 1, 1), 1, "y".data, "s".data, 1⟩,
          ⟨(0, 2, 2), 3, "z".data, "s".data, 2⟩]⟩ : Index Nat) (encN "ab".data) 20).length =
      min 20 (⟨[⟨(0, 0, 0), 5, "x".data, "s".data, 0⟩, ⟨(0, 1, 1), 1, "y".data, "s".data, 1⟩,
          ⟨(0, 2, 2), 3, "z".data, "s".data, 2⟩]⟩ : Index Nat).entries.length :=
  ⟨(C8_retrieval_nearest_first encN distN
      ⟨[⟨(0, 0, 0), 5, "x".data, "s".data, 0⟩, ⟨(0, 1, 1), 1, "y".data, "s".data, 1⟩,
        ⟨(0, 2, 2), 3, "z".data, "s".data, 2⟩]⟩ "ab".data 20).1,
    (C8_retrieval_nearest_first encN distN
      ⟨[⟨(0, 0, 0), 5, "x".data, "s".data, 0⟩, ⟨(0, 1, 1), 1, "y".data, "s".data, 1⟩,
        ⟨(0, 2, 2), 3, "z".data, "s".data, 2⟩]⟩ "ab".data 20).2.1⟩

/-- C10: retrieval performs no write to the vector index: the collection state
after `get_relevant_chunks` is exactly the collection state before the call,
and the returned context is the pure query result. -/
theorem C10_retrieval_reads_only {E : Type} (encodeOne : List Char → E)
    (dist : E → E → Nat) (idx : Index E) (query : List Char) (top_k : Nat) :
    (get_relevant_chunksSt encodeOne dist idx query top_k).2 = idx ∧
    (get_relevant_chunksSt encodeOne dist idx query top_k).2.entries = idx.entries ∧
    (get_relevant_chunksSt encodeOne dist idx query top_k).1 =
      get_relevant_chunks encodeOne dist idx query top_k :=
  ⟨rfl, rfl, rfl⟩

end Rag
